import Mathlib

/-!
# Verification of the Flow Design Guide client scripts

Shallow embedding of the two source files of the repository,
`src/js/auth.js` (password gate / session guard) and `src/js/nav.js`
(content index search and highlighting), together with proofs of the
spec's testable properties.

Conventions:
* JS strings are modelled by Lean `String` / `List Char`; the JS string
  operations used by the code (`includes`, `toLowerCase`, `length`) are
  defined below on `List Char`.
* `localStorage` for the auth session key is modelled as a value of the
  inductive type `Stored`; reading, deleting and writing the key become
  explicit state passing.
* `Date.now()` is passed in explicitly as an `Int` (epoch milliseconds).
* The SHA-256 platform primitive is a parameter `digestOf : String → String`.
-/

namespace FlowGuide

/-! ## JS string primitives -/

/-- `isPrefixL pat s` : `pat` is a (contiguous) prefix of `s`. -/
def isPrefixL : List Char → List Char → Bool
  | [], _ => true
  | _ :: _, [] => false
  | p :: ps, c :: cs => p == c && isPrefixL ps cs

/-- `hasSub pat s` : `pat` occurs as a contiguous substring of `s`
(the semantics of JS `s.includes(pat)`). -/
def hasSub (pat : List Char) : List Char → Bool
  | [] => isPrefixL pat []
  | c :: rest => isPrefixL pat (c :: rest) || hasSub pat rest

/-- JS `s.includes(sub)`. -/
def jsIncludes (s sub : String) : Bool := hasSub sub.data s.data

/-- JS `s.toLowerCase()` (ASCII fragment, adequate for the repository's
string data). -/
def jsToLower (s : String) : String := ⟨s.data.map Char.toLower⟩

/-! ## `src/js/auth.js` : configuration -/

/-- `AUTH_CONFIG.passwordHash` (auth.js line 16). -/
def passwordHash : String :=
  "8c6976e5b5410415bde908bd4dee15dfb167a9c873fc4bb8a81f6f2ab448a918"

/-- `AUTH_CONFIG.sessionDuration = 24 * 60 * 60 * 1000` (auth.js line 18). -/
def sessionDuration : Int := 24 * 60 * 60 * 1000

/-! ## `src/js/auth.js` : session state model

`isAuthenticated` destructures `JSON.parse(session)` as
`{ timestamp, hash }` and computes `now - timestamp`.  We model the
parsed `timestamp` slot as either an ordinary number (`TSVal.int`, the
JS subtraction yields that number subtracted) or as a value whose
subtraction from `now` yields `NaN` (`TSVal.nonNum`: a missing or
non-numeric field).  The `hash` slot is either a string or some
non-string value (`HVal.other`), which can never be `===`-equal to the
configured reference digest string. -/

inductive TSVal where
  | int (t : Int)
  | nonNum
deriving DecidableEq

inductive HVal where
  | str (s : String)
  | other
deriving DecidableEq

/-- The destructured fields of a successfully parsed session value. -/
structure SessionVal where
  ts : TSVal
  hash : HVal
deriving DecidableEq

/-- The auth slot of `localStorage`:
* `absent` — `localStorage.getItem` returns `null`;
* `bad` — a stored string on which `JSON.parse` throws (or whose parse
  result cannot be destructured, e.g. `null`), i.e. the `catch` path;
* `val v` — a stored string that parses and destructures to `v`. -/
inductive Stored where
  | absent
  | bad
  | val (v : SessionVal)
deriving DecidableEq

/-- `hash === AUTH_CONFIG.passwordHash` (auth.js line 46): a non-string
stored hash is never strictly equal to the reference string. -/
def hashMatches : HVal → Bool
  | .str s => s == passwordHash
  | .other => false

/-- The branch condition `now - timestamp > AUTH_CONFIG.sessionDuration`
(auth.js line 40).  When `now - timestamp` is `NaN` (non-numeric
timestamp), the JS comparison is false. -/
def expiredAt (now : Int) (v : SessionVal) : Bool :=
  match v.ts with
  | .int t => decide (now - t > sessionDuration)
  | .nonNum => false

/-- `isAuthenticated()` (auth.js lines 31–51), with the storage slot made
explicit.  Returns the boolean result together with the storage slot
after the call (`localStorage.removeItem` sets it to `absent`). -/
def isAuthenticated (now : Int) (st : Stored) : Bool × Stored :=
  match st with
  | .absent => (false, .absent)
  | .bad => (false, .absent)
  | .val v =>
    if expiredAt now v then (false, .absent)
    else (hashMatches v.hash, .val v)

/-- `setAuthenticated()` (auth.js lines 54–60): stores
`{ timestamp: Date.now(), hash: AUTH_CONFIG.passwordHash }`. -/
def setAuthenticated (now : Int) : Stored :=
  .val ⟨.int now, .str passwordHash⟩

/-- Outcome of the login form submit handler (auth.js lines 240–261). -/
inductive SubmitOutcome where
  | emptyPrompt
  | granted
  | denied
deriving DecidableEq

/-- The form submit handler (auth.js lines 240–261): an empty password
short-circuits with an inline prompt; otherwise the SHA-256 digest of
the password is compared to the reference digest, and on a match
`setAuthenticated()` runs.  `digestOf` abstracts the `sha256` platform
primitive (auth.js lines 22–28). -/
def submitPassword (digestOf : String → String) (now : Int)
    (password : String) (st : Stored) : SubmitOutcome × Stored :=
  if password = "" then (.emptyPrompt, st)
  else if digestOf password = passwordHash then (.granted, setAuthenticated now)
  else (.denied, st)

/-! ## `src/js/nav.js` : content index search -/

/-- A record of the searchable content index (nav.js lines 72–98). -/
structure PageRecord where
  title : String
  url : String
  keywords : List String
  description : String
deriving DecidableEq

/-- The hard-coded `searchIndex` (nav.js lines 72–98).  `basePath` is the
value of `getBasePath()` (nav.js lines 100–107), `""` or `"../"`
depending on the current location. -/
def searchIndex (basePath : String) : List PageRecord :=
  [ { title := "Overview"
    , url := basePath ++ "index.html"
    , keywords := ["home", "welcome", "getting started", "flow", "design guide"]
    , description := "Welcome to the Flow Design Guide" }
  , { title := "Drawing Sheet Filenaming"
    , url := basePath ++ "standards/drawing-sheet-naming.html"
    , keywords := ["drawing", "sheet", "filenaming", "naming", "protocol",
        "discipline", "zone", "sub-zone", "sheet series", "descriptor",
        "revision", "consultant", "project code"]
    , description := "Drawing sheet file naming protocol and conventions" }
  , { title := "BIM Folder Structure"
    , url := basePath ++ "standards/bim-folder-structure.html"
    , keywords := ["bim", "folder", "structure", "directory", "organization",
        "revit", "model", "project", "archive", "discipline", "coordination",
        "linked", "export", "wip"]
    , description := "Standardized folder structure for BIM projects" }
  , { title := "BIM Models Filenaming"
    , url := basePath ++ "standards/bim-models-filenaming.html"
    , keywords := ["bim", "model", "filenaming", "naming", "protocol", "revit",
        "navisworks", "nwc", "nwd", "dwg", "autocad", "discipline", "zone",
        "consultant", "project code"]
    , description := "BIM model file naming protocol and conventions" }
  , { title := "BIM Definitions"
    , url := basePath ++ "standards/bim-definitions.html"
    , keywords := ["bim", "definitions", "terms", "glossary", "vocabulary",
        "bep", "bim execution plan", "cde", "common data environment", "clash",
        "coordination", "federated model", "ifc", "lod", "loi", "loin", "guid",
        "cobie", "cafm", "gis"]
    , description := "Standard BIM terminology and definitions" }
  , { title := "BIM Abbreviations"
    , url := basePath ++ "standards/bim-abbreviations.html"
    , keywords := ["bim", "abbreviations", "acronyms", "2d", "3d", "4d", "5d",
        "6d", "7d", "arc", "str", "mep", "mec", "ele", "int", "lsd", "dwg",
        "dwf", "dxf", "rvt", "rfa", "nwc", "nwd", "ifc", "cad", "cde", "lod",
        "loi", "cd", "pd", "dd", "td", "fm"]
    , description := "Standard abbreviations used in BIM documentation" }
  ]

/-- The filter predicate of `performSearch` (nav.js lines 117–121):
```
item.title.toLowerCase().includes(lowerQuery) ||
item.keywords.some(k => k.includes(lowerQuery)) ||
item.description.toLowerCase().includes(lowerQuery)
```
Note that the keyword itself is *not* lower-cased by the code. -/
def matchesItem (lowerQuery : String) (item : PageRecord) : Bool :=
  jsIncludes (jsToLower item.title) lowerQuery ||
  item.keywords.any (fun k => jsIncludes k lowerQuery) ||
  jsIncludes (jsToLower item.description) lowerQuery

/-- The three display states `performSearch` can leave the results pane
in (nav.js lines 109–135): cleared and not active (short query), the
`no-results` sentinel item, or the list of matched records (rendered in
filter order). -/
inductive SearchOutcome where
  | inactive
  | noResults
  | results (rs : List PageRecord)
deriving DecidableEq

/-- `performSearch(query)` (nav.js lines 109–135) with the result pane
state made explicit.  The guard is the code's
`if (!query || query.length < 2)`; JS `!query` on a string is true
exactly for the empty string. -/
def performSearch (query : String) (index : List PageRecord) : SearchOutcome :=
  if query = "" ∨ query.length < 2 then .inactive
  else
    let lowerQuery := jsToLower query
    let results := index.filter (fun item => matchesItem lowerQuery item)
    if results.length = 0 then .noResults
    else .results results

/-- The matching policy in the words of the spec (§4.2): the lower-cased
query is a substring of the lower-cased title, or of some keyword
*case-insensitively*, or of the lower-cased description.  Used to
compare the code's predicate against the spec's. -/
def specMatchesItem (query : String) (item : PageRecord) : Bool :=
  jsIncludes (jsToLower item.title) (jsToLower query) ||
  item.keywords.any (fun k => jsIncludes (jsToLower k) (jsToLower query)) ||
  jsIncludes (jsToLower item.description) (jsToLower query)

/-! ## `src/js/nav.js` : highlighting

`highlightMatch(text, query)` (nav.js lines 137–140) builds
`new RegExp('(' + escapeRegex(query) + ')', 'gi')` and returns
`text.replace(regex, '<mark>$1</mark>')`.  After `escapeRegex`
(nav.js lines 142–144) the pattern is a sequence of literal characters
and escaped metacharacters, so the fragment of the regex language that
can actually arise is: escaped literals, plain literals, and — only if
the query were *not* escaped — the `.` wildcard.  We model exactly that
fragment: `RAtom.any` is the `.` wildcard, `RAtom.lit c` a literal
character, and a pattern is a list of atoms, each consuming one
character.  Replacement with the `g` and `i` flags is the left-to-right,
non-overlapping, case-insensitive scan `scanReplace`. -/

/-- The character class of `escapeRegex` (nav.js line 143):
`/[.*+?^$\x7b\x7d()|[\]\\]/`. -/
def isSpecialChar (c : Char) : Bool :=
  c = '.' || c = '*' || c = '+' || c = '?' || c = '^' || c = '$' ||
  c = '\x7b' || c = '\x7d' || c = '(' || c = ')' || c = '|' ||
  c = '[' || c = ']' || c = '\\'

/-- `escapeRegex(string)` (nav.js lines 142–144): prefix every regex
metacharacter with a backslash. -/
def escapeRegex (s : List Char) : List Char :=
  s.flatMap (fun c => if isSpecialChar c then ['\\', c] else [c])

/-- One atom of the modelled regex fragment. -/
inductive RAtom where
  | any
  | lit (c : Char)
deriving DecidableEq

/-- Parse a regex source string into atoms: `\c` is the literal `c`,
an unescaped `.` is the wildcard, anything else is a literal.  (A
trailing lone backslash — a syntax error in JS — is read as a literal;
it never occurs in an escaped query.) -/
def parsePat : List Char → List RAtom
  | [] => []
  | c :: rest =>
    if c = '\\' then
      match rest with
      | [] => [RAtom.lit c]
      | d :: rest2 => RAtom.lit d :: parsePat rest2
    else (if c = '.' then RAtom.any else RAtom.lit c) :: parsePat rest

/-- Case-insensitive (`i` flag) match of one atom against one character. -/
def atomMatches : RAtom → Char → Bool
  | .any, _ => true
  | .lit c, d => c.toLower == d.toLower

/-- Does the pattern match a prefix of `s` (each atom one character)? -/
def patAccepts : List RAtom → List Char → Bool
  | [], _ => true
  | _ :: _, [] => false
  | a :: as, c :: cs => atomMatches a c && patAccepts as cs

/-- Matcher interface used by the replace scan: `some n` means a match
of length `n` starts here. -/
def patMatchLen (pat : List RAtom) (s : List Char) : Option Nat :=
  if patAccepts pat s then some pat.length else none

/-- Case-insensitive literal prefix test (the spec's notion of a
case-insensitive occurrence of the literal query). -/
def ciPrefixB : List Char → List Char → Bool
  | [], _ => true
  | _ :: _, [] => false
  | q :: qs, c :: cs => q.toLower == c.toLower && ciPrefixB qs cs

/-- Literal-matcher for the replace scan. -/
def ciMatchLen (q s : List Char) : Option Nat :=
  if ciPrefixB q s then some q.length else none

/-- `'<mark>'` as characters. -/
def mOpenL : List Char := ['<', 'm', 'a', 'r', 'k', '>']

/-- `'</mark>'` as characters. -/
def mCloseL : List Char := ['<', '/', 'm', 'a', 'r', 'k', '>']

/-- `text.replace(regex, '<mark>$1</mark>')` with a global flag:
scan left to right; where the matcher fires, wrap the matched characters
(`$1`, original case preserved) in the markers and continue after the
match; an empty match is wrapped and the scan advances one character
(JS advances `lastIndex` past an empty match). -/
def scanAux (m : List Char → Option Nat) : Nat → List Char → List Char
  | 0, _ => []
  | _ + 1, [] =>
    match m [] with
    | some _ => mOpenL ++ mCloseL
    | none => []
  | fuel + 1, c :: rest =>
    match m (c :: rest) with
    | none => c :: scanAux m fuel rest
    | some n =>
      if n = 0 then mOpenL ++ mCloseL ++ c :: scanAux m fuel rest
      else mOpenL ++ (c :: rest).take n ++ mCloseL ++
           scanAux m fuel ((c :: rest).drop n)

/-- The scan of `scanAux` started with enough fuel to finish (each
recursive call strictly shrinks the list, except on an empty match,
which consumes one character of fuel and one of input). -/
def scanReplace (m : List Char → Option Nat) (s : List Char) : List Char :=
  scanAux m (s.length + 1) s

/-- `highlightMatch(text, query)` (nav.js lines 137–140). -/
def highlightMatch (text query : String) : String :=
  ⟨scanReplace (patMatchLen (parsePat (escapeRegex query.data))) text.data⟩

/-- The highlighting behaviour in the words of the spec (§4.2): every
case-insensitive occurrence of the *literal* query substring is wrapped
in the emphasis markers. -/
def specHighlight (text query : String) : String :=
  ⟨scanReplace (ciMatchLen query.data) text.data⟩

/-- Remove every occurrence of the two marker strings `<mark>` and
`</mark>` from a string (left-to-right scan). -/
def stripAux : Nat → List Char → List Char
  | 0, _ => []
  | _ + 1, [] => []
  | fuel + 1, c :: rest =>
    if isPrefixL mOpenL (c :: rest) then stripAux fuel ((c :: rest).drop 6)
    else if isPrefixL mCloseL (c :: rest) then stripAux fuel ((c :: rest).drop 7)
    else c :: stripAux fuel rest

/-- `stripAux` with enough fuel to finish. -/
def stripMarks (s : List Char) : List Char :=
  stripAux (s.length + 1) s

/-- `stripMarks` on `String`. -/
def stripMarksStr (s : String) : String := ⟨stripMarks s.data⟩

/-! ## Session record serialization (auth.js lines 36 and 54–60)

`setAuthenticated` stores `JSON.stringify({timestamp, hash})` and
`isAuthenticated` reads it back with `JSON.parse`.  We model the record,
the exact serialized form produced by `JSON.stringify` (including its
string-escaping rules), and a parser for the serialized grammar. -/

/-- The Session Record `{ timestamp: epoch millis, hash: digest }`. -/
structure SessionRec where
  timestamp : Int
  hash : String
deriving DecidableEq

/-- Decimal digit character for `n < 10`. -/
def digitChar : Nat → Char
  | 0 => '0' | 1 => '1' | 2 => '2' | 3 => '3' | 4 => '4'
  | 5 => '5' | 6 => '6' | 7 => '7' | 8 => '8' | _ => '9'

/-- Decimal digits with fuel (the fuel dominates the digit count). -/
def natCharsAux : Nat → Nat → List Char
  | 0, _ => []
  | fuel + 1, n =>
    if n < 10 then [digitChar n]
    else natCharsAux fuel (n / 10) ++ [digitChar (n % 10)]

/-- Decimal digits of a natural number, most significant first
(`JSON.stringify` of a non-negative integer below 2^53). -/
def natChars (n : Nat) : List Char := natCharsAux (n + 1) n

/-- `JSON.stringify` of an integer. -/
def intChars (i : Int) : List Char :=
  if i < 0 then '-' :: natChars i.natAbs else natChars i.toNat

/-- Lower-case hex digit for `n < 16`. -/
def hexDigitChar : Nat → Char
  | 0 => '0' | 1 => '1' | 2 => '2' | 3 => '3' | 4 => '4'
  | 5 => '5' | 6 => '6' | 7 => '7' | 8 => '8' | 9 => '9'
  | 10 => 'a' | 11 => 'b' | 12 => 'c' | 13 => 'd' | 14 => 'e' | _ => 'f'

/-- The string-escaping rule of `JSON.stringify` for one character:
quote and backslash get a backslash escape, the five named control
characters get their short escapes, other control characters become
`\u00XX`, and everything else is emitted verbatim. -/
def jsonEscChar (c : Char) : List Char :=
  if c = '"' then ['\\', '"']
  else if c = '\\' then ['\\', '\\']
  else if c.toNat = 8 then ['\\', 'b']
  else if c.toNat = 9 then ['\\', 't']
  else if c.toNat = 10 then ['\\', 'n']
  else if c.toNat = 12 then ['\\', 'f']
  else if c.toNat = 13 then ['\\', 'r']
  else if c.toNat < 32 then
    ['\\', 'u', '0', '0', hexDigitChar (c.toNat / 16), hexDigitChar (c.toNat % 16)]
  else [c]

/-- `JSON.stringify` of a string value: quoted, characters escaped. -/
def quoteChars (s : List Char) : List Char :=
  '"' :: s.flatMap jsonEscChar ++ ['"']

/-- `JSON.stringify({timestamp: r.timestamp, hash: r.hash})` — keys in
insertion order, no whitespace. -/
def stringifySession (r : SessionRec) : List Char :=
  '\x7b' :: "\"timestamp\":".data ++ intChars r.timestamp ++
  ",\"hash\":".data ++ quoteChars r.hash.data ++ ['\x7d']

/-- `stringifySession` on `String`. -/
def stringifySessionStr (r : SessionRec) : String := ⟨stringifySession r⟩

/-- Consume an expected literal character sequence. -/
def expectChars : List Char → List Char → Option (List Char)
  | [], s => some s
  | _ :: _, [] => none
  | c :: cs, d :: s => if c = d then expectChars cs s else none

/-- Consume a maximal run of decimal digits, accumulating their value. -/
def parseDigits (acc : Nat) : List Char → Nat × List Char
  | [] => (acc, [])
  | c :: rest =>
    if c.isDigit then parseDigits (acc * 10 + (c.toNat - 48)) rest
    else (acc, c :: rest)

/-- Parse a JSON integer (optional minus sign, at least one digit). -/
def parseJInt : List Char → Option (Int × List Char)
  | [] => none
  | '-' :: rest =>
    match rest with
    | [] => none
    | c :: _ =>
      if c.isDigit then
        let p := parseDigits 0 rest
        some (-(p.1 : Int), p.2)
      else none
  | c :: rest =>
    if c.isDigit then
      let p := parseDigits 0 (c :: rest)
      some ((p.1 : Int), p.2)
    else none

/-- Value of a hex digit character. -/
def hexVal (c : Char) : Option Nat :=
  if 48 ≤ c.toNat ∧ c.toNat ≤ 57 then some (c.toNat - 48)
  else if 97 ≤ c.toNat ∧ c.toNat ≤ 102 then some (c.toNat - 87)
  else if 65 ≤ c.toNat ∧ c.toNat ≤ 70 then some (c.toNat - 55)
  else none

/-- Parse the body of a JSON string (after the opening quote) up to and
including the closing quote: returns the decoded characters and the
remainder.  Handles the backslash escapes of the JSON grammar. -/
def parseJStrBody (fuel : Nat) : List Char → Option (List Char × List Char) :=
  match fuel with
  | 0 => fun _ => none
  | fuel + 1 => fun s =>
    match s with
    | [] => none
    | c :: rest =>
      if c = '"' then some ([], rest)
      else if c = '\\' then
        match rest with
        | [] => none
        | e :: rest2 =>
          if e = '"' then (fun p => ('"' :: p.1, p.2)) <$> parseJStrBody fuel rest2
          else if e = '\\' then (fun p => ('\\' :: p.1, p.2)) <$> parseJStrBody fuel rest2
          else if e = '/' then (fun p => ('/' :: p.1, p.2)) <$> parseJStrBody fuel rest2
          else if e = 'b' then (fun p => ('\x08' :: p.1, p.2)) <$> parseJStrBody fuel rest2
          else if e = 't' then (fun p => ('\t' :: p.1, p.2)) <$> parseJStrBody fuel rest2
          else if e = 'n' then (fun p => ('\n' :: p.1, p.2)) <$> parseJStrBody fuel rest2
          else if e = 'f' then (fun p => ('\x0c' :: p.1, p.2)) <$> parseJStrBody fuel rest2
          else if e = 'r' then (fun p => ('\x0d' :: p.1, p.2)) <$> parseJStrBody fuel rest2
          else if e = 'u' then
            match rest2 with
            | h1 :: h2 :: h3 :: h4 :: rest3 =>
              match hexVal h1, hexVal h2, hexVal h3, hexVal h4 with
              | some a, some b, some c2, some d =>
                (fun p => (Char.ofNat (a * 4096 + b * 256 + c2 * 16 + d) :: p.1, p.2))
                  <$> parseJStrBody fuel rest3
              | _, _, _, _ => none
            | _ => none
          else none
      else (fun p => (c :: p.1, p.2)) <$> parseJStrBody fuel rest

/-- Parse the exact serialized shape of a Session Record (the
restriction of `JSON.parse` to the grammar `stringifySession`
produces). -/
def parseSession (s : List Char) : Option SessionRec := do
  let s1 ← expectChars ('\x7b' :: "\"timestamp\":".data) s
  let (t, s2) ← parseJInt s1
  let s3 ← expectChars (",\"hash\":".data ++ ['"']) s2
  let (h, s4) ← parseJStrBody (s3.length + 1) s3
  let s5 ← expectChars ['\x7d'] s4
  if s5 = [] then some ⟨t, ⟨h⟩⟩ else none

/-- `parseSession` on `String`. -/
def parseSessionStr (s : String) : Option SessionRec := parseSession s.data

/-! ## Claims about the session guard -/

/-- **C1 (counterexample).**  The claim says every failure case of
`isAuthenticated()` removes the stored record.  A fresh, well-formed
record whose digest differs from the reference makes `isAuthenticated`
return false while the record stays in storage: the code's
digest-mismatch branch (auth.js line 46) returns without calling
`localStorage.removeItem`. -/
theorem c1_counterexample :
    (isAuthenticated 0 (Stored.val ⟨TSVal.int 0, HVal.str "0"⟩)).1 = false ∧
    (isAuthenticated 0 (Stored.val ⟨TSVal.int 0, HVal.str "0"⟩)).2 =
      Stored.val ⟨TSVal.int 0, HVal.str "0"⟩ := by
  decide

/-- **C1 (amended).**  `isAuthenticated()` returns false if no session
record is stored, if the stored JSON fails to parse, if `now` minus the
stored timestamp exceeds the expiry duration, or if the stored digest
differs from the reference; the record is removed as a side effect in
the parse-failure and expiry cases (storage also ends empty in the
absent case), while on a digest mismatch with an unexpired well-formed
record the record is left in storage; whenever the call returns false, an
immediate second call returns the same false result and leaves storage
unchanged. -/
theorem c1_isAuthenticated_failures (now : Int) (st : Stored) :
    (st = Stored.absent → isAuthenticated now st = (false, Stored.absent)) ∧
    (st = Stored.bad → isAuthenticated now st = (false, Stored.absent)) ∧
    (∀ v t, st = Stored.val v → v.ts = TSVal.int t → now - t > sessionDuration →
      isAuthenticated now st = (false, Stored.absent)) ∧
    (∀ v, st = Stored.val v → expiredAt now v = false → hashMatches v.hash = false →
      isAuthenticated now st = (false, Stored.val v)) ∧
    ((isAuthenticated now st).1 = false →
      isAuthenticated now (isAuthenticated now st).2 = isAuthenticated now st) := by
  refine ⟨?_, ?_, ?_, ?_, ?_⟩
  · rintro rfl; rfl
  · rintro rfl; rfl
  · rintro v t rfl hts hgt
    simp [isAuthenticated, expiredAt, hts, hgt]
  · rintro v rfl hexp hmis
    simp [isAuthenticated, hexp, hmis]
  · intro hfalse
    match st with
    | .absent => rfl
    | .bad => rfl
    | .val v =>
      by_cases hexp : expiredAt now v
      · simp [isAuthenticated, hexp]
      · simp [isAuthenticated, hexp]

/-- **C1 (witness).**  The amended theorem applied at a concrete
mismatching record. -/
theorem c1_witness :
    isAuthenticated 0 (Stored.val ⟨TSVal.int 0, HVal.str "0"⟩) =
      (false, Stored.val ⟨TSVal.int 0, HVal.str "0"⟩) :=
  (c1_isAuthenticated_failures 0 (Stored.val ⟨TSVal.int 0, HVal.str "0"⟩)).2.2.2.1
    ⟨TSVal.int 0, HVal.str "0"⟩ rfl (by decide) (by decide)

/-- **C2.**  For every password string `P`, the submit handler grants
access iff the digest of `P` equals the configured reference digest
(the hypothesis `h0` records the fact — true of SHA-256 — that the
digest of the empty string, which the handler rejects before hashing,
is not the reference digest); on a grant it has stored a session record
with the current timestamp and the reference digest, and an immediately
following `isAuthenticated()` returns true. -/
theorem c2_submit_grants_iff_digest (digestOf : String → String)
    (h0 : digestOf "" ≠ passwordHash) (now : Int) (password : String) (st : Stored) :
    ((submitPassword digestOf now password st).1 = SubmitOutcome.granted ↔
      digestOf password = passwordHash) ∧
    ((submitPassword digestOf now password st).1 = SubmitOutcome.granted →
      (submitPassword digestOf now password st).2 = setAuthenticated now ∧
      (isAuthenticated now (submitPassword digestOf now password st).2).1 = true) := by
  by_cases hp : password = ""
  · subst hp
    constructor
    · simp [submitPassword]
      exact fun h => absurd h h0
    · simp [submitPassword]
  · by_cases hd : digestOf password = passwordHash
    · constructor
      · simp [submitPassword, hp, hd]
      · intro _
        refine ⟨by simp [submitPassword, hp, hd], ?_⟩
        simp [submitPassword, hp, hd, setAuthenticated, isAuthenticated,
          expiredAt, hashMatches, sessionDuration]
    · constructor
      · simp [submitPassword, hp, hd]
      · simp [submitPassword, hp, hd]

/-- **C2 (witness).**  A concrete digest function granting exactly one
password: submitting it grants access and authenticates. -/
theorem c2_witness :
    ((submitPassword (fun s => if s = "pw" then passwordHash else "x") 5 "pw"
        Stored.absent).1 = SubmitOutcome.granted ↔
      (fun s => if s = "pw" then passwordHash else "x") "pw" = passwordHash) ∧
    ((submitPassword (fun s => if s = "pw" then passwordHash else "x") 5 "pw"
        Stored.absent).1 = SubmitOutcome.granted →
      (submitPassword (fun s => if s = "pw" then passwordHash else "x") 5 "pw"
        Stored.absent).2 = setAuthenticated 5 ∧
      (isAuthenticated 5 (submitPassword (fun s => if s = "pw" then passwordHash else "x")
        5 "pw" Stored.absent).2).1 = true) :=
  c2_submit_grants_iff_digest (fun s => if s = "pw" then passwordHash else "x")
    (by decide) 5 "pw" Stored.absent

/-- **C4.**  A session whose age exactly equals the expiry duration is
not invalidated: the record stays and the result depends only on the
digest comparison; the record is deleted (with a false result) exactly
when `now - timestamp` is strictly greater than the duration. -/
theorem c4_expiry_boundary (now t : Int) (h : HVal) :
    (now - t = sessionDuration →
      isAuthenticated now (Stored.val ⟨TSVal.int t, h⟩) =
        (hashMatches h, Stored.val ⟨TSVal.int t, h⟩)) ∧
    (now - t > sessionDuration →
      isAuthenticated now (Stored.val ⟨TSVal.int t, h⟩) = (false, Stored.absent)) := by
  constructor
  · intro heq
    simp [isAuthenticated, expiredAt, heq]
  · intro hgt
    simp [isAuthenticated, expiredAt, hgt]

/-- **C4 (witness).**  At exactly 24 hours of age with the reference
digest stored, `isAuthenticated` still returns true and keeps the
record. -/
theorem c4_witness :
    isAuthenticated 86400000 (Stored.val ⟨TSVal.int 0, HVal.str passwordHash⟩) =
      (true, Stored.val ⟨TSVal.int 0, HVal.str passwordHash⟩) := by
  have h := (c4_expiry_boundary 86400000 0 (HVal.str passwordHash)).1 (by decide)
  simpa [hashMatches] using h

/-- **C9.**  If the stored session parses but its timestamp is not a
number (`now - timestamp` is `NaN`) or lies in the future
(`now - timestamp` negative), the expiry branch does not fire:
`isAuthenticated` returns true exactly when the stored hash equals the
reference digest, and the record is not deleted. -/
theorem c9_nonNum_or_future_timestamp (now : Int) (v : SessionVal)
    (h : v.ts = TSVal.nonNum ∨ ∃ t, v.ts = TSVal.int t ∧ now - t < 0) :
    isAuthenticated now (Stored.val v) = (hashMatches v.hash, Stored.val v) := by
  have hexp : expiredAt now v = false := by
    rcases h with hnn | ⟨t, hts, hneg⟩
    · simp [expiredAt, hnn]
    · simp [expiredAt, hts, sessionDuration]
      omega
  simp [isAuthenticated, hexp]

/-- **C9 (witness).**  A non-numeric timestamp with the reference digest
stored: `isAuthenticated` returns true and keeps the record. -/
theorem c9_witness :
    isAuthenticated 0 (Stored.val ⟨TSVal.nonNum, HVal.str passwordHash⟩) =
      (true, Stored.val ⟨TSVal.nonNum, HVal.str passwordHash⟩) := by
  have h := c9_nonNum_or_future_timestamp 0 ⟨TSVal.nonNum, HVal.str passwordHash⟩
    (Or.inl rfl)
  simpa [hashMatches] using h

/-! ## Claims about the content index search -/

/-- Every keyword of every record of the hard-coded index is already
lower-case, so the code's raw-keyword containment test coincides with a
case-insensitive one on this index. -/
theorem searchIndex_keywords_lower (bp : String) :
    ∀ r ∈ searchIndex bp, ∀ k ∈ r.keywords, jsToLower k = k := by
  intro r hr k hk
  have hmem : r.keywords ∈ (searchIndex bp).map PageRecord.keywords :=
    List.mem_map_of_mem _ hr
  have heq : (searchIndex bp).map PageRecord.keywords =
      (searchIndex "").map PageRecord.keywords := rfl
  rw [heq] at hmem
  have hall : ∀ ks ∈ (searchIndex "").map PageRecord.keywords,
      ∀ k2 ∈ ks, jsToLower k2 = k2 := by decide
  exact hall _ hmem k hk

/-- On a record whose keywords are lower-case, the code's filter
predicate agrees with the spec's matching policy. -/
theorem matchesItem_eq_spec (q : String) (r : PageRecord)
    (hk : ∀ k ∈ r.keywords, jsToLower k = k) :
    matchesItem (jsToLower q) r = specMatchesItem q r := by
  unfold matchesItem specMatchesItem
  have hany : ∀ ks : List String, (∀ k ∈ ks, jsToLower k = k) →
      (ks.any fun k => jsIncludes k (jsToLower q)) =
      (ks.any fun k => jsIncludes (jsToLower k) (jsToLower q)) := by
    intro ks hks
    induction ks with
    | nil => rfl
    | cons a as ih =>
      have h1 := hks a (List.mem_cons_self a as)
      have h2 : ∀ k ∈ as, jsToLower k = k :=
        fun k hk2 => hks k (List.mem_cons_of_mem a hk2)
      simp [List.any_cons, h1, ih h2]
  rw [hany r.keywords hk]

/-- **C3.**  For every query of length at least 2, the search over the
fixed index returns exactly the records matching the spec's policy
(case-insensitive substring of title, of some keyword, or of the
description), in original index order (the result is a sublist of the
index, i.e. no reordering). -/
theorem c3_search_policy (bp q : String) (h : 2 ≤ q.length) :
    (searchIndex bp).filter (fun r => matchesItem (jsToLower q) r) =
      (searchIndex bp).filter (fun r => specMatchesItem q r) ∧
    performSearch q (searchIndex bp) =
      (if ((searchIndex bp).filter (fun r => specMatchesItem q r)).length = 0
       then SearchOutcome.noResults
       else SearchOutcome.results
         ((searchIndex bp).filter (fun r => specMatchesItem q r))) ∧
    List.Sublist ((searchIndex bp).filter (fun r => specMatchesItem q r))
      (searchIndex bp) := by
  have hfil : (searchIndex bp).filter (fun r => matchesItem (jsToLower q) r) =
      (searchIndex bp).filter (fun r => specMatchesItem q r) :=
    List.filter_congr
      (fun r hr => matchesItem_eq_spec q r (searchIndex_keywords_lower bp r hr))
  have hne : ¬(q = "" ∨ q.length < 2) := by
    rintro (rfl | hlt)
    · exact absurd h (by decide)
    · omega
  refine ⟨hfil, ?_, List.filter_sublist _⟩
  simp only [performSearch, hne, if_false, hfil]

/-- **C3 (witness).**  The spec's own example: `search("bim")` returns
exactly the four BIM records, in index order. -/
theorem c3_witness :
    (searchIndex "").filter (fun r => matchesItem (jsToLower "bim") r) =
      (searchIndex "").filter (fun r => specMatchesItem "bim" r) ∧
    performSearch "bim" (searchIndex "") =
      (if ((searchIndex "").filter (fun r => specMatchesItem "bim" r)).length = 0
       then SearchOutcome.noResults
       else SearchOutcome.results
         ((searchIndex "").filter (fun r => specMatchesItem "bim" r))) ∧
    List.Sublist ((searchIndex "").filter (fun r => specMatchesItem "bim" r))
      (searchIndex "") :=
  c3_search_policy "" "bim" (by decide)

/-- **C5.**  A query of length below 2 (in particular the empty query)
short-circuits to the inactive result, whatever the index contains. -/
theorem c5_short_query (q : String) (idx : List PageRecord) (h : q.length < 2) :
    performSearch q idx = SearchOutcome.inactive := by
  unfold performSearch
  rw [if_pos (Or.inr h)]

/-- **C5 (witness).**  `search("a")` on the fixed index is inactive. -/
theorem c5_witness : performSearch "a" (searchIndex "") = SearchOutcome.inactive :=
  c5_short_query "a" (searchIndex "") (by decide)

/-- **C7.**  An active query (length at least 2) matching no record of
the index produces the designated no-results sentinel, which is a value
distinct from an empty result list. -/
theorem c7_no_results_sentinel (q : String) (idx : List PageRecord)
    (h : 2 ≤ q.length)
    (hm : idx.filter (fun r => matchesItem (jsToLower q) r) = []) :
    performSearch q idx = SearchOutcome.noResults ∧
    SearchOutcome.noResults ≠ SearchOutcome.results [] := by
  have hne : ¬(q = "" ∨ q.length < 2) := by
    rintro (rfl | hlt)
    · exact absurd h (by decide)
    · omega
  constructor
  · simp [performSearch, hne, hm]
  · decide

/-- **C7 (witness).**  `search("zz")` matches nothing in the fixed index
and yields the sentinel. -/
theorem c7_witness :
    performSearch "zz" (searchIndex "") = SearchOutcome.noResults ∧
    SearchOutcome.noResults ≠ SearchOutcome.results [] :=
  c7_no_results_sentinel "zz" (searchIndex "") (by decide) (by decide)

/-! ## Claims about highlighting -/

/-- Parsing an escaped query yields a pattern of literal atoms only:
escaping removes every wildcard interpretation. -/
theorem parsePat_escapeRegex (s : List Char) :
    parsePat (escapeRegex s) = s.map RAtom.lit := by
  induction s with
  | nil => rfl
  | cons c cs ih =>
    show parsePat ((if isSpecialChar c then ['\\', c] else [c]) ++ escapeRegex cs) =
      RAtom.lit c :: cs.map RAtom.lit
    by_cases hsp : isSpecialChar c
    · simp only [hsp, if_true, List.cons_append, List.singleton_append]
      simp [parsePat, ih]
    · have hc1 : ¬ c = '\\' := by rintro rfl; exact hsp (by decide)
      have hc2 : ¬ c = '.' := by rintro rfl; exact hsp (by decide)
      simp only [hsp, if_false, List.singleton_append]
      rw [parsePat.eq_def]
      simp [hc1, hc2, ih]

/-- An all-literal pattern accepts a prefix exactly when the underlying
characters are a case-insensitive prefix. -/
theorem patAccepts_map_lit (q : List Char) :
    ∀ s, patAccepts (q.map RAtom.lit) s = ciPrefixB q s := by
  induction q with
  | nil => intro s; rfl
  | cons a as ih =>
    intro s
    cases s with
    | nil => rfl
    | cons c cs => simp [patAccepts, ciPrefixB, atomMatches, ih]

/-- The escaped-pattern matcher coincides with the literal
case-insensitive matcher. -/
theorem patMatchLen_lit (q s : List Char) :
    patMatchLen (q.map RAtom.lit) s = ciMatchLen q s := by
  simp [patMatchLen, ciMatchLen, patAccepts_map_lit, List.length_map]

/-- Pointwise equal matchers produce the same replacement scan. -/
theorem scanAux_congr (m1 m2 : List Char → Option Nat)
    (h : ∀ s, m1 s = m2 s) : ∀ fuel s, scanAux m1 fuel s = scanAux m2 fuel s := by
  intro fuel
  induction fuel with
  | zero => intro s; rfl
  | succ f ih =>
    intro s
    cases s with
    | nil => simp only [scanAux, h []]
    | cons c rest =>
      simp only [scanAux, h (c :: rest)]
      cases m2 (c :: rest) with
      | none => rw [ih]
      | some k =>
        by_cases hk : k = 0 <;> simp [hk, ih]

/-- **C6.**  `highlightMatch` equals the spec's literal highlighting:
every case-insensitive occurrence of the literal query substring (and
nothing else) is wrapped in the emphasis markers, scanning left to
right; and the escaped query parses to a pattern of literal atoms, so a
pattern-special character in the query is never interpreted as a
wildcard. -/
theorem c6_highlight_literal (text query : String) :
    highlightMatch text query = specHighlight text query ∧
    parsePat (escapeRegex query.data) = query.data.map RAtom.lit := by
  have hp := parsePat_escapeRegex query.data
  refine ⟨?_, hp⟩
  unfold highlightMatch specHighlight scanReplace
  rw [hp]
  exact congrArg String.mk
    (scanAux_congr _ _ (fun s => patMatchLen_lit query.data s) _ _)

/-! ## Claim C8: session record serialization round-trip -/

/-- Consuming an expected literal prefix succeeds and leaves the rest. -/
theorem expectChars_pre (lit rest : List Char) :
    expectChars lit (lit ++ rest) = some rest := by
  induction lit with
  | nil => rfl
  | cons c cs ih => simp [expectChars, ih]

/-- Digit characters are digits. -/
theorem digitChar_isDigit (n : Nat) (h : n < 10) : (digitChar n).isDigit = true := by
  interval_cases n <;> decide

/-- Value of a digit character. -/
theorem digitChar_val (n : Nat) (h : n < 10) : (digitChar n).toNat - 48 = n := by
  interval_cases n <;> decide

/-- `parseDigits` consumes exactly the digits of `natCharsAux`,
folding their value onto the accumulator. -/
theorem parseDigits_natCharsAux (fuel : Nat) :
    ∀ n, n < fuel → ∀ acc r,
      parseDigits acc (natCharsAux fuel n ++ r) =
        parseDigits (acc * 10 ^ (natCharsAux fuel n).length + n) r := by
  induction fuel with
  | zero => intro n h; omega
  | succ f ih =>
    intro n hn acc r
    by_cases h10 : n < 10
    · simp [natCharsAux, h10, parseDigits, digitChar_isDigit n h10,
        digitChar_val n h10]
    · have hdiv : n / 10 < f := by omega
      have hlt : n % 10 < 10 := Nat.mod_lt n (by omega)
      simp only [natCharsAux, h10, if_false, List.append_assoc,
        List.singleton_append]
      rw [ih (n / 10) hdiv acc]
      simp only [parseDigits, digitChar_isDigit (n % 10) hlt,
        digitChar_val (n % 10) hlt, if_true]
      congr 1
      have hdm := Nat.div_add_mod n 10
      simp only [List.length_append, List.length_cons, List.length_nil]
      generalize (natCharsAux f (n / 10)).length = L
      rw [pow_succ]
      set K := (10 : Nat) ^ L with hK
      ring_nf
      omega

/-- `parseDigits` stops at a non-digit. -/
theorem parseDigits_stop (acc : Nat) (c : Char) (r : List Char)
    (hc : c.isDigit = false) : parseDigits acc (c :: r) = (acc, c :: r) := by
  simp [parseDigits, hc]

/-- `natCharsAux` output is nonempty and starts with a digit. -/
theorem natCharsAux_head (fuel : Nat) :
    ∀ n, n < fuel → ∃ c cs, natCharsAux fuel n = c :: cs ∧ c.isDigit = true := by
  induction fuel with
  | zero => intro n h; omega
  | succ f ih =>
    intro n hn
    by_cases h10 : n < 10
    · exact ⟨digitChar n, [], by simp [natCharsAux, h10], digitChar_isDigit n h10⟩
    · have hdiv : n / 10 < f := by omega
      obtain ⟨c, cs, hc, hd⟩ := ih (n / 10) hdiv
      exact ⟨c, cs ++ [digitChar (n % 10)],
        by simp [natCharsAux, h10, hc], hd⟩

/-- `parseDigits` reads back `natChars n` followed by a comma. -/
theorem parseDigits_natChars (n : Nat) (rs : List Char) :
    parseDigits 0 (natChars n ++ (',' :: rs)) = (n, ',' :: rs) := by
  unfold natChars
  rw [parseDigits_natCharsAux (n + 1) n (by omega) 0 (',' :: rs)]
  rw [parseDigits_stop _ _ _ (by decide)]
  simp

/-- `parseJInt` reads back exactly the integer written by `intChars`
when a comma follows (as in the serialized record). -/
theorem parseJInt_intChars (i : Int) (rs : List Char) :
    parseJInt (intChars i ++ (',' :: rs)) = some (i, ',' :: rs) := by
  by_cases hneg : i < 0
  · obtain ⟨c, cs, hc, hd⟩ := natCharsAux_head (i.natAbs + 1) i.natAbs (by omega)
    have hc2 : natChars i.natAbs = c :: cs := hc
    simp only [intChars, hneg, if_true, List.cons_append]
    rw [parseJInt.eq_def]
    split
    · rename_i heq; cases heq
    · rename_i rest heq
      injection heq with h1 h2
      subst h2
      rw [hc2, List.cons_append]
      simp only [hd, if_true]
      rw [← List.cons_append, ← hc2, parseDigits_natChars]
      simp only [Option.some.injEq, Prod.mk.injEq, and_true]
      omega
    · rename_i cc cl hnm heq
      injection heq with h1 h2
      exact absurd h1.symm hnm
  · obtain ⟨c, cs, hc, hd⟩ := natCharsAux_head (i.toNat + 1) i.toNat (by omega)
    have hc2 : natChars i.toNat = c :: cs := hc
    have hcm : ¬ (c = '-') := by
      rintro rfl
      exact absurd hd (by decide)
    simp only [intChars, hneg, if_false, hc2, List.cons_append]
    rw [parseJInt.eq_def]
    split
    · rename_i heq; cases heq
    · rename_i rest heq
      injection heq with h1 h2
      exact absurd h1 hcm
    · rename_i cc cl hnm heq
      injection heq with h1 h2
      subst h1
      subst h2
      simp only [hd, if_true]
      have hrw : c :: (cs ++ ',' :: rs) = natChars i.toNat ++ (',' :: rs) := by
        rw [hc2]; rfl
      rw [hrw, parseDigits_natChars]
      simp only [Option.some.injEq, Prod.mk.injEq, and_true]
      omega

/-- Hex digit characters evaluate back to their value. -/
theorem hexVal_hexDigitChar (k : Nat) (h : k < 16) :
    hexVal (hexDigitChar k) = some k := by
  interval_cases k <;> decide

/-- Characters with equal code points are equal. -/
theorem char_eq_of_toNat (c d : Char) (h : c.toNat = d.toNat) : c = d := by
  calc c = Char.ofNat c.toNat := (Char.ofNat_toNat c).symm
    _ = Char.ofNat d.toNat := by rw [h]
    _ = d := Char.ofNat_toNat d

/-- The escape of one character is nonempty. -/
theorem jsonEscChar_ne_nil (c : Char) : jsonEscChar c ≠ [] := by
  unfold jsonEscChar
  split_ifs <;> simp

/-- Escaping does not shorten a string. -/
theorem length_le_flatMap_esc (s : List Char) :
    s.length ≤ (s.flatMap jsonEscChar).length := by
  induction s with
  | nil => simp
  | cons c cs ih =>
    have hne := jsonEscChar_ne_nil c
    have hpos : 1 ≤ (jsonEscChar c).length := by
      cases hjc : jsonEscChar c with
      | nil => exact absurd hjc hne
      | cons a l => simp
    simp only [List.flatMap_cons, List.length_append, List.length_cons]
    omega

/-- `parseJStrBody` decodes exactly what `jsonEscChar` encoded, up to
the closing quote. -/
theorem parseJStrBody_round (r : List Char) :
    ∀ fuel s, s.length < fuel →
      parseJStrBody fuel (s.flatMap jsonEscChar ++ ('"' :: r)) = some (s, r) := by
  intro fuel
  induction fuel with
  | zero => intro s h; omega
  | succ f ih =>
    intro s hs
    cases s with
    | nil =>
      simp [parseJStrBody]
    | cons c cs =>
      have hcs : cs.length < f := by
        simp only [List.length_cons] at hs; omega
      have htail := ih cs hcs
      simp only [List.flatMap_cons, List.append_assoc]
      by_cases h1 : c = '"'
      · subst h1
        simp [jsonEscChar, parseJStrBody, htail]
      · by_cases h2 : c = '\\'
        · subst h2
          simp [jsonEscChar, parseJStrBody, htail]
        · by_cases h3 : c.toNat = 8
          · have hc : c = '\x08' := char_eq_of_toNat c '\x08' (by rw [h3]; rfl)
            subst hc
            simp [jsonEscChar, parseJStrBody, htail]
          · by_cases h4 : c.toNat = 9
            · have hc : c = '\x09' := char_eq_of_toNat c '\x09' (by rw [h4]; rfl)
              subst hc
              simp [jsonEscChar, parseJStrBody, htail]
            · by_cases h5 : c.toNat = 10
              · have hc : c = '\x0a' := char_eq_of_toNat c '\x0a' (by rw [h5]; rfl)
                subst hc
                simp [jsonEscChar, parseJStrBody, htail]
              · by_cases h6 : c.toNat = 12
                · have hc : c = '\x0c' := char_eq_of_toNat c '\x0c' (by rw [h6]; rfl)
                  subst hc
                  simp [jsonEscChar, parseJStrBody, htail]
                · by_cases h7 : c.toNat = 13
                  · have hc : c = '\x0d' := char_eq_of_toNat c '\x0d' (by rw [h7]; rfl)
                    subst hc
                    simp [jsonEscChar, parseJStrBody, htail]
                  · by_cases h8 : c.toNat < 32
                    · -- \u00XX escape
                      have hq : ¬ (c = '"') := h1
                      have hb : ¬ (c = '\\') := h2
                      have hdiv : c.toNat / 16 < 16 := by omega
                      have hmod : c.toNat % 16 < 16 := by omega
                      simp only [jsonEscChar, h1, h2, h3, h4, h5, h6, h7, h8,
                        if_false, if_true, List.cons_append, List.nil_append]
                      simp only [parseJStrBody]
                      simp only [reduceIte]
                      simp only [hexVal_hexDigitChar _ hdiv,
                        hexVal_hexDigitChar _ hmod,
                        show hexVal '0' = some 0 from by decide]
                      have hchar :
                          Char.ofNat (c.toNat / 16 * 16 + c.toNat % 16) = c := by
                        have hx : c.toNat / 16 * 16 + c.toNat % 16 = c.toNat := by
                          omega
                        rw [hx]
                        exact Char.ofNat_toNat c
                      simp [htail, hchar]
                    · -- plain character
                      simp only [jsonEscChar, h1, h2, h3, h4, h5, h6, h7, h8,
                        if_false, List.cons_append, List.nil_append]
                      simp only [parseJStrBody, h1, h2, if_false]
                      simp [htail]

/-- **C8.**  Serializing a Session Record with `JSON.stringify` and
parsing it back preserves `timestamp` and `hash` exactly. -/
theorem c8_session_roundtrip (r : SessionRec) :
    parseSessionStr (stringifySessionStr r) = some r := by
  unfold parseSessionStr stringifySessionStr parseSession stringifySession
  simp only [String.data]
  rw [show ('\x7b' :: "\"timestamp\":".data ++ intChars r.timestamp ++
      ",\"hash\":".data ++ quoteChars r.hash.data ++ ['\x7d']) =
      (('\x7b' :: "\"timestamp\":".data) ++ (intChars r.timestamp ++
      (',' :: ("\"hash\":".data ++ quoteChars r.hash.data ++ ['\x7d'])))) from by
    rw [show (",\"hash\":".data : List Char) = ',' :: "\"hash\":".data from rfl]
    simp [List.append_assoc]]
  rw [expectChars_pre]
  simp only [Option.bind_eq_bind, Option.some_bind]
  rw [parseJInt_intChars]
  simp only [Option.some_bind]
  rw [show (',' :: ("\"hash\":".data ++ quoteChars r.hash.data ++ ['\x7d'])) =
      ((",\"hash\":".data ++ ['"']) ++
        (r.hash.data.flatMap jsonEscChar ++ ('"' :: ['\x7d']))) from by
    rw [show (",\"hash\":".data : List Char) = ',' :: "\"hash\":".data from rfl]
    simp [quoteChars, List.append_assoc]]
  rw [expectChars_pre]
  simp only [Option.some_bind]
  rw [parseJStrBody_round ['\x7d'] _ r.hash.data (by
    have := length_le_flatMap_esc r.hash.data
    simp only [List.length_append, List.length_cons]
    omega)]
  simp only [Option.some_bind]
  simp [expectChars]

/-! ## Claim C10: stripping the markers recovers the title

`Out o s` characterizes the outputs `o` the replacement scan can
produce from an input `s`: interleavings of copied input characters and
wrapped nonoverlapping segments of the input. -/

inductive Out : List Char → List Char → Prop where
  | nil : Out [] []
  | plain (c : Char) {o s : List Char} : Out o s → Out (c :: o) (c :: s)
  | wrap (seg : List Char) {o s : List Char} :
      Out o s → Out (mOpenL ++ seg ++ mCloseL ++ o) (seg ++ s)

/-- A list is a prefix of itself extended. -/
theorem isPrefixL_append_self (l xs : List Char) :
    isPrefixL l (l ++ xs) = true := by
  induction l with
  | nil => rfl
  | cons c cs ih => simp [isPrefixL, ih]

/-- Prefixes extend along appends. -/
theorem isPrefixL_extend (pat : List Char) :
    ∀ s t, isPrefixL pat s = true → isPrefixL pat (s ++ t) = true := by
  induction pat with
  | nil => intro s t _; rfl
  | cons p ps ih =>
    intro s t hpre
    cases s with
    | nil => simp [isPrefixL] at hpre
    | cons c cs =>
      simp only [isPrefixL, Bool.and_eq_true, beq_iff_eq] at hpre ⊢
      exact ⟨hpre.1, ih cs t hpre.2⟩

/-- A prefix occurrence is a substring occurrence. -/
theorem hasSub_of_isPrefixL (pat s : List Char) (h : isPrefixL pat s = true) :
    hasSub pat s = true := by
  cases s with
  | nil => exact h
  | cons c cs => simp [hasSub, h]

/-- No occurrence in `c :: s` gives no occurrence in `s`. -/
theorem hasSub_tail (pat : List Char) (c : Char) (s : List Char)
    (h : hasSub pat (c :: s) = false) : hasSub pat s = false := by
  simp only [hasSub, Bool.or_eq_false_iff] at h
  exact h.2

/-- A pattern without `'<'` that prefixes a scan output prefixes the
corresponding input: output-only characters are marker characters,
which begin with `'<'`. -/
theorem isPrefixL_out (pat : List Char) (hlt : '<' ∉ pat) :
    ∀ o s, Out o s → isPrefixL pat o = true → isPrefixL pat s = true := by
  induction pat with
  | nil => intro o s _ _; rfl
  | cons p ps ih =>
    intro o s hout hpre
    cases hout with
    | nil => simp [isPrefixL] at hpre
    | plain c hrec =>
      simp only [isPrefixL, Bool.and_eq_true, beq_iff_eq] at hpre ⊢
      have hps : '<' ∉ ps := fun hm => hlt (List.mem_cons_of_mem p hm)
      exact ⟨hpre.1, ih hps _ _ hrec hpre.2⟩
    | wrap seg hrec =>
      exfalso
      simp only [mOpenL, List.cons_append, isPrefixL, Bool.and_eq_true,
        beq_iff_eq] at hpre
      exact hlt (hpre.1 ▸ List.mem_cons_self p _)

/-- A pattern without `'<'` that prefixes `seg ++ '<' :: rest`
prefixes `seg` itself: it cannot reach past the `'<'`. -/
theorem isPrefixL_seg (pat : List Char) (hlt : '<' ∉ pat) :
    ∀ seg rest, isPrefixL pat (seg ++ '<' :: rest) = true →
      isPrefixL pat seg = true := by
  induction pat with
  | nil => intro seg rest _; rfl
  | cons p ps ih =>
    intro seg rest hpre
    cases seg with
    | nil =>
      exfalso
      simp only [List.nil_append, isPrefixL, Bool.and_eq_true,
        beq_iff_eq] at hpre
      exact hlt (hpre.1 ▸ List.mem_cons_self p _)
    | cons sc seg2 =>
      simp only [List.cons_append, isPrefixL, Bool.and_eq_true,
        beq_iff_eq] at hpre ⊢
      have hps : '<' ∉ ps := fun hm => hlt (List.mem_cons_of_mem p hm)
      exact ⟨hpre.1, ih hps seg2 rest hpre.2⟩

/-- Neither marker starts at a copied input character of a scan output,
provided the input contains no marker. -/
theorem marker_not_at_plain (mk mkTail : List Char) (hmk : mk = '<' :: mkTail)
    (hlt : '<' ∉ mkTail) (c : Char) (o s : List Char) (hout : Out o s)
    (hsub : hasSub mk (c :: s) = false) :
    isPrefixL mk (c :: o) = false := by
  by_contra hpre
  rw [Bool.not_eq_false] at hpre
  rw [hmk] at hpre
  simp only [isPrefixL, Bool.and_eq_true, beq_iff_eq] at hpre
  have htails : isPrefixL mkTail s = true := isPrefixL_out mkTail hlt o s hout hpre.2
  have : isPrefixL mk (c :: s) = true := by
    rw [hmk]
    simp only [isPrefixL, Bool.and_eq_true, beq_iff_eq]
    exact ⟨hpre.1, htails⟩
  rw [hasSub_of_isPrefixL mk (c :: s) this] at hsub
  cases hsub

/-- Neither marker starts inside a wrapped segment of a scan output,
provided the segment and the following input contain no marker. -/
theorem marker_not_at_seg (mk mkTail : List Char) (hmk : mk = '<' :: mkTail)
    (hlt : '<' ∉ mkTail) (sc : Char) (seg2 rest s : List Char)
    (hsub : hasSub mk (sc :: (seg2 ++ s)) = false) :
    isPrefixL mk (sc :: (seg2 ++ '<' :: rest)) = false := by
  by_contra hpre
  rw [Bool.not_eq_false] at hpre
  rw [hmk] at hpre
  simp only [isPrefixL, Bool.and_eq_true, beq_iff_eq] at hpre
  have htails : isPrefixL mkTail seg2 = true :=
    isPrefixL_seg mkTail hlt seg2 rest hpre.2
  have hseg : isPrefixL mk (sc :: seg2) = true := by
    rw [hmk]
    simp only [isPrefixL, Bool.and_eq_true, beq_iff_eq]
    exact ⟨hpre.1, htails⟩
  have hext : isPrefixL mk ((sc :: seg2) ++ s) = true :=
    isPrefixL_extend mk (sc :: seg2) s hseg
  rw [List.cons_append] at hext
  rw [hasSub_of_isPrefixL mk (sc :: (seg2 ++ s)) hext] at hsub
  cases hsub

/-- No occurrence in `seg ++ s` gives no occurrence in `s`. -/
theorem hasSub_drop_append (pat : List Char) :
    ∀ seg s, hasSub pat (seg ++ s) = false → hasSub pat s = false := by
  intro seg
  induction seg with
  | nil => intro s h; exact h
  | cons c cs ih =>
    intro s h
    exact ih s (hasSub_tail pat c (cs ++ s) h)

/-- The tail of `<mark>` contains no `'<'`. -/
theorem mOpenTail_no_lt : '<' ∉ ['m', 'a', 'r', 'k', '>'] := by decide

/-- The tail of `</mark>` contains no `'<'`. -/
theorem mCloseTail_no_lt : '<' ∉ ['/', 'm', 'a', 'r', 'k', '>'] := by decide

/-- Stripping a wrapped segment followed by more output recovers the
segment, given the remaining output strips correctly. -/
theorem stripAux_seg (s o : List Char)
    (hrest : ∀ f2, o.length < f2 → stripAux f2 o = s) :
    ∀ seg fuel, seg.length + 7 + o.length < fuel →
      hasSub mOpenL (seg ++ s) = false →
      hasSub mCloseL (seg ++ s) = false →
      stripAux fuel (seg ++ mCloseL ++ o) = seg ++ s := by
  intro seg
  induction seg with
  | nil =>
    intro fuel hfuel _ _
    match fuel, hfuel with
    | f + 1, hfuel =>
      show stripAux (f + 1) (mCloseL ++ o) = s
      rw [show (mCloseL ++ o : List Char) =
        '<' :: '/' :: 'm' :: 'a' :: 'r' :: 'k' :: '>' :: o from rfl]
      simp only [stripAux, mOpenL, mCloseL, isPrefixL]
      simp only [show (('<' : Char) == '<') = true from by decide,
        show (('m' : Char) == '/') = false from by decide, Bool.true_and,
        Bool.false_and, Bool.and_false, if_false]
      simp only [beq_self_eq_true, Bool.true_and, if_true]
      simp only [List.drop_succ_cons, List.drop_zero]
      exact hrest f (by omega)
  | cons sc seg2 ih =>
    intro fuel hfuel hsub1 hsub2
    match fuel, hfuel with
    | f + 1, hfuel =>
      have heq : ((sc :: seg2) ++ mCloseL ++ o : List Char) =
          sc :: (seg2 ++ '<' :: (['/', 'm', 'a', 'r', 'k', '>'] ++ o)) := by
        simp [mCloseL]
      rw [heq]
      have hs1 : hasSub mOpenL (sc :: (seg2 ++ s)) = false := by
        simpa using hsub1
      have hs2 : hasSub mCloseL (sc :: (seg2 ++ s)) = false := by
        simpa using hsub2
      have hp1 := marker_not_at_seg mOpenL ['m', 'a', 'r', 'k', '>'] rfl
        mOpenTail_no_lt sc seg2 (['/', 'm', 'a', 'r', 'k', '>'] ++ o) s hs1
      have hp2 := marker_not_at_seg mCloseL ['/', 'm', 'a', 'r', 'k', '>'] rfl
        mCloseTail_no_lt sc seg2 (['/', 'm', 'a', 'r', 'k', '>'] ++ o) s hs2
      simp only [stripAux, hp1, hp2, Bool.false_eq_true, if_false]
      have hrw : (seg2 ++ '<' :: (['/', 'm', 'a', 'r', 'k', '>'] ++ o) :
          List Char) = seg2 ++ mCloseL ++ o := by
        simp [mCloseL]
      rw [hrw]
      rw [ih f (by simp at hfuel ⊢; omega) (hasSub_tail _ _ _ hs1)
        (hasSub_tail _ _ _ hs2)]
      rfl

/-- Stripping the markers from any scan output recovers the input,
provided the input contains neither marker string. -/
theorem stripAux_out :
    ∀ o s, Out o s → hasSub mOpenL s = false → hasSub mCloseL s = false →
      ∀ fuel, o.length < fuel → stripAux fuel o = s := by
  intro o s hout
  induction hout with
  | nil =>
    intro _ _ fuel hf
    match fuel, hf with
    | f + 1, _ => rfl
  | plain c hrec ih =>
    rename_i o2 s2
    intro hsub1 hsub2 fuel hf
    match fuel, hf with
    | f + 1, hf =>
      have hp1 := marker_not_at_plain mOpenL ['m', 'a', 'r', 'k', '>'] rfl
        mOpenTail_no_lt c o2 s2 hrec hsub1
      have hp2 := marker_not_at_plain mCloseL ['/', 'm', 'a', 'r', 'k', '>'] rfl
        mCloseTail_no_lt c o2 s2 hrec hsub2
      simp only [stripAux, hp1, hp2, Bool.false_eq_true, if_false]
      rw [ih (hasSub_tail _ _ _ hsub1) (hasSub_tail _ _ _ hsub2) f
        (by simp at hf ⊢; omega)]
  | wrap seg hrec ih =>
    rename_i o2 s2
    intro hsub1 hsub2 fuel hf
    match fuel, hf with
    | f + 1, hf =>
      have heq : (mOpenL ++ seg ++ mCloseL ++ o2 : List Char) =
          '<' :: 'm' :: 'a' :: 'r' :: 'k' :: '>' :: (seg ++ mCloseL ++ o2) := by
        simp [mOpenL]
      rw [heq]
      simp only [stripAux]
      simp only [show isPrefixL mOpenL
        ('<' :: 'm' :: 'a' :: 'r' :: 'k' :: '>' :: (seg ++ mCloseL ++ o2)) =
          true from by
        rw [show ('<' :: 'm' :: 'a' :: 'r' :: 'k' :: '>' ::
            (seg ++ mCloseL ++ o2) : List Char) =
          mOpenL ++ (seg ++ mCloseL ++ o2) from rfl]
        exact isPrefixL_append_self mOpenL _, if_true]
      simp only [List.drop_succ_cons, List.drop_zero]
      exact stripAux_seg s2 o2
        (fun f2 hf2 => ih (hasSub_drop_append mOpenL seg s2 hsub1)
          (hasSub_drop_append mCloseL seg s2 hsub2) f2 hf2) seg f
        (by simp [mOpenL, mCloseL] at hf ⊢; omega) hsub1 hsub2

/-- Every scan with a matcher that only reports positive-length matches
produces an output characterized by `Out`. -/
theorem scanAux_out (m : List Char → Option Nat)
    (hm : ∀ s n, m s = some n → 1 ≤ n) :
    ∀ fuel s, s.length < fuel → Out (scanAux m fuel s) s := by
  intro fuel
  induction fuel with
  | zero => intro s h; omega
  | succ f ih =>
    intro s hs
    cases s with
    | nil =>
      simp only [scanAux]
      cases hm0 : m [] with
      | none => exact Out.nil
      | some n =>
        have := Out.wrap [] Out.nil
        simpa using this
    | cons c rest =>
      have hr : rest.length < f := by simp at hs; omega
      simp only [scanAux]
      cases hmc : m (c :: rest) with
      | none => exact Out.plain c (ih rest hr)
      | some n =>
        have hn : 1 ≤ n := hm _ _ hmc
        have hn0 : ¬ (n = 0) := by omega
        simp only [hn0, if_false]
        have hd : ((c :: rest).drop n).length < f := by
          simp [List.length_drop]
          omega
        have hw := Out.wrap ((c :: rest).take n) (ih _ hd)
        rw [List.take_append_drop] at hw
        exact hw

/-- **C10.**  For every title containing neither marker string and every
non-empty query, removing all `<mark>` and `</mark>` occurrences from
the highlighted title yields exactly the original title: highlighting
only inserts markers, preserving the matched characters. -/
theorem c10_strip_inverts_highlight (t q : String)
    (h1 : hasSub mOpenL t.data = false) (h2 : hasSub mCloseL t.data = false)
    (hq : q ≠ "") :
    stripMarksStr (highlightMatch t q) = t := by
  unfold stripMarksStr highlightMatch scanReplace stripMarks
  have hqd : q.data ≠ [] := by
    intro hnil
    apply hq
    cases q with
    | mk l => cases hnil; rfl
  have hm : ∀ s n,
      patMatchLen (parsePat (escapeRegex q.data)) s = some n → 1 ≤ n := by
    intro s n hsn
    unfold patMatchLen at hsn
    split at hsn
    · cases hsn
      rw [parsePat_escapeRegex, List.length_map]
      cases hql : q.data with
      | nil => exact absurd hql hqd
      | cons a l => simp
    · cases hsn
  have hout := scanAux_out _ hm (t.data.length + 1) t.data (by omega)
  have hstrip := stripAux_out _ _ hout h1 h2
    ((scanAux (patMatchLen (parsePat (escapeRegex q.data)))
      (t.data.length + 1) t.data).length + 1) (by omega)
  rw [hstrip]

/-- **C10 (witness).**  Stripping the highlight of a concrete title. -/
theorem c10_witness :
    stripMarksStr (highlightMatch "BIM Folder Structure" "bim") =
      "BIM Folder Structure" :=
  c10_strip_inverts_highlight "BIM Folder Structure" "bim" (by decide)
    (by decide) (by decide)

end FlowGuide
